import Mathlib

/-!
Verification of the community-maintenance core of the graphiti repository.

The development shallowly embeds the two source files:

* `graphiti_core/utils/maintenance/community_operations.py` — the reduction
  loop of `build_community`, the control flow of `build_communities`, the
  vote-tallying of `determine_entity_community`, and the effect sequence of
  `update_community`;
* `server/graph_service/zep_graphiti.py` — the 404-translation wrappers
  `get_entity_edge`, `delete_entity_edge`, `delete_episodic_node`.

External collaborators (the LLM client, the embedder, the neo4j driver) are
modelled as oracle parameters: an LLM call is a function argument, a query
result is a list of records passed in, and a fallible awaited step is an
`Except` value supplied by the environment.
-/

namespace Graphiti

/-- An entity record, carrying the fields of `EntityNode` that the
community code reads (`uuid`, `name`, `group_id`, `summary`). -/
structure EntityNode where
  uuid : String
  name : String
  group_id : String
  summary : String
deriving DecidableEq

/-- A community record as returned by `get_community_node_from_record`:
the fields of `CommunityNode` that `determine_entity_community` and
`update_community` read. -/
structure CommunityNode where
  uuid : String
  name : String
  group_id : String
  summary : String
deriving DecidableEq

/-- The fields of the `CommunityNode` constructed at the end of
`build_community` (`uuid` and `created_at` are generated externally and are
not modelled). -/
structure BuiltCommunity where
  name : String
  group_id : String
  summary : String
deriving DecidableEq

/-- The even-length working list of one iteration of the `while length > 1`
loop of `build_community`: when the length is odd the positional last
element is popped (`summaries.pop()`) before pairing. -/
def workingOf (s : List String) : List String :=
  if s.length % 2 = 1 then s.dropLast else s

/-- The `odd_one_out` element set aside by one iteration of the loop of
`build_community`: the popped last element when the length is odd, `none`
when the length is even. -/
def carriedOf (s : List String) : Option String :=
  if s.length % 2 = 1 then s.getLast? else none

/-- One iteration of the `while length > 1` loop of `build_community`:
`zip(summaries[:length//2], summaries[length//2:])` merges the two halves
of the working list pointwise (each zipped pair is one `summarize_pair`
call, `merge` standing for the text the LLM returns), and the
`odd_one_out`, if any, is re-appended at the end. -/
def reduceRound (merge : String → String → String) (s : List String) : List String :=
  List.zipWith merge
      ((workingOf s).take ((workingOf s).length / 2))
      ((workingOf s).drop ((workingOf s).length / 2))
    ++ (carriedOf s).toList

/-- The full `while length > 1` loop of `build_community`: repeat
`reduceRound` until at most one summary remains. -/
def reduceLoop (merge : String → String → String) (s : List String) : List String :=
  if 1 < s.length then reduceLoop merge (reduceRound merge s) else s
termination_by s.length
decreasing_by
  have htl : ((carriedOf s).toList).length ≤ 1 := by
    cases carriedOf s <;> simp
  simp only [reduceRound, List.length_append, List.length_zipWith,
    List.length_take, List.length_drop]
  by_cases hp : s.length % 2 = 1 <;>
    simp [workingOf, carriedOf, hp] at htl ⊢ <;> omega

/-- The number of `summarize_pair` invocations issued by the loop of
`build_community` on input `s`: each round issues one call per zipped pair,
i.e. `(working length) / 2` calls. -/
def reduceCalls (merge : String → String → String) (s : List String) : Nat :=
  if 1 < s.length then
    (workingOf s).length / 2 + reduceCalls merge (reduceRound merge s)
  else 0
termination_by s.length
decreasing_by
  have htl : ((carriedOf s).toList).length ≤ 1 := by
    cases carriedOf s <;> simp
  simp only [reduceRound, List.length_append, List.length_zipWith,
    List.length_take, List.length_drop]
  by_cases hp : s.length % 2 = 1 <;>
    simp [workingOf, carriedOf, hp] at htl ⊢ <;> omega

/-- `build_community` on one cluster: extract the member summaries in input
order, run the reduction loop, name the community from the final summary
(`nameOf` standing for `generate_summary_description`), and copy `group_id`
from the first entity of the cluster.  An empty cluster makes the python
code raise `IndexError` (`summaries[0]`), modelled as `none`. -/
def buildCommunity (merge : String → String → String) (nameOf : String → String)
    (cluster : List EntityNode) : Option BuiltCommunity :=
  match cluster with
  | [] => none
  | first :: rest =>
    let summaries := (first :: rest).map (fun e => e.summary)
    let finalSummary := (reduceLoop merge summaries).headD ""
    some { name := nameOf finalSummary
           group_id := first.group_id
           summary := finalSummary }

/-- The number of `summarize_pair` invocations `build_community` issues on
one cluster. -/
def buildCommunityCalls (merge : String → String → String)
    (cluster : List EntityNode) : Nat :=
  reduceCalls merge (cluster.map (fun e => e.summary))

/-- A python exception raised by an awaited external call: the typed
not-found errors that `zep_graphiti.py` translates, or any other
exception. -/
inductive PyError where
  | edgeNotFound (msg : String)
  | nodeNotFound (msg : String)
  | other (msg : String)
deriving DecidableEq

/-- Control-flow model of `build_communities`.  Each awaited step is an
oracle input: `proj` is the outcome of `build_projection`, `clusters proj`
the outcome of `get_community_clusters`, `build cluster` the outcome of one
`build_community` task (the `asyncio.gather` wave fails as a whole when any
task fails, modelled by `List.mapM`).  The second component counts the
`destroy_projection` invocations made during the run: the source calls it
only on the all-steps-succeeded path, with no try/finally around the
intermediate steps. -/
def buildCommunitiesRun (proj : Except PyError String)
    (clusters : String → Except PyError (List (List EntityNode)))
    (build : List EntityNode → Except PyError BuiltCommunity) :
    Except PyError (List BuiltCommunity) × Nat :=
  match proj with
  | .error e => (.error e, 0)
  | .ok projection =>
    match clusters projection with
    | .error e => (.error e, 0)
    | .ok cls =>
      match cls.mapM build with
      | .error e => (.error e, 0)
      | .ok communities => (.ok communities, 1)

/-- Number of occurrences of `u` in a list of uuids (the final value
`community_map[u]` reaches in `determine_entity_community`). -/
def countU (u : String) : List String → Nat
  | [] => 0
  | v :: rest => (if v = u then 1 else 0) + countU u rest

/-- Position of the first occurrence of `u` in a list (`l.length` when `u`
is absent); used to speak about result order. -/
def firstIdx (u : String) : List String → Nat
  | [] => 0
  | v :: rest => if v = u then 0 else firstIdx u rest + 1

/-- First-occurrence deduplication: the key order of a python dict filled
by `community_map[uuid] += 1` over the list (a key is inserted at its first
occurrence and iteration follows insertion order). -/
def dedupFirst : List String → List String
  | [] => []
  | v :: rest => v :: (dedupFirst rest).filter (fun x => decide (x ≠ v))

/-- The `community_map.items()` sequence of `determine_entity_community`:
keys in first-occurrence order, each with its total occurrence count. -/
def tally (us : List String) : List (String × Nat) :=
  (dedupFirst us).map (fun u => (u, countU u us))

/-- One step of the selection loop of `determine_entity_community`:
`if count > max_count: community_uuid, max_count = uuid, count`. -/
def selStep (acc : Option String × Nat) (p : String × Nat) : Option String × Nat :=
  if acc.2 < p.2 then (some p.1, p.2) else acc

/-- The selection loop of `determine_entity_community`, started from
`community_uuid = None, max_count = 0`. -/
def selectMax (m : List (String × Nat)) : Option String × Nat :=
  m.foldl selStep (none, 0)

/-- `determine_entity_community`.  `direct` is the record list of the
direct-membership query, `nbrs` the record list of the neighbor-membership
query (one record per neighboring member entity, i.e. one vote).  Mirrors
the source: a direct membership returns `(first record, False)`; otherwise
votes are tallied, the selection loop runs, `max_count == 0` returns
`(None, False)`, and otherwise the first listed community bearing the
selected uuid is returned with `True` (the trailing `return None, False` is
the fall-through when no record bears it). -/
def determineEntityCommunity (direct nbrs : List CommunityNode) :
    Option CommunityNode × Bool :=
  match direct with
  | c :: _ => (some c, false)
  | [] =>
    let sel := selectMax (tally (nbrs.map (fun c => c.uuid)))
    if sel.2 = 0 then (none, false)
    else
      match nbrs.find? (fun c => decide (some c.uuid = sel.1)) with
      | some c => (some c, true)
      | none => (none, false)

/-- One observable call `update_community` makes against its collaborators,
in program order: the two LLM calls, the membership-edge save (source is
the community, target the entity, per `build_community_edges`), the
name-embedding regeneration, and the community upsert. -/
inductive Effect where
  | llmSummarizePair (a b : String)
  | llmDescribe (s : String)
  | saveEdge (communityUuid entityUuid : String)
  | generateNameEmbedding (name : String)
  | saveCommunity (uuid : String)
deriving DecidableEq

/-- Whether an effect is the save of a membership edge. -/
def Effect.isSaveEdge : Effect → Bool
  | .saveEdge _ _ => true
  | _ => false

/-- Whether an effect is a name-embedding regeneration. -/
def Effect.isEmbedding : Effect → Bool
  | .generateNameEmbedding _ => true
  | _ => false

/-- Whether an effect is the save of the community node. -/
def Effect.isSaveCommunity : Effect → Bool
  | .saveCommunity _ => true
  | _ => false

/-- `update_community` as the ordered sequence of collaborator calls it
issues: resolve the assignment (over the two query results `direct` and
`nbrs`), return immediately when it is `None`; otherwise summarize the pair
(entity summary, community summary), derive the new name, save one new
membership edge when `is_new`, regenerate the name embedding and save the
community. -/
def updateCommunity (merge : String → String → String) (nameOf : String → String)
    (direct nbrs : List CommunityNode) (entity : EntityNode) : List Effect :=
  match determineEntityCommunity direct nbrs with
  | (none, _) => []
  | (some community, isNew) =>
    let newSummary := merge entity.summary community.summary
    let newName := nameOf newSummary
    [Effect.llmSummarizePair entity.summary community.summary,
     Effect.llmDescribe newSummary]
    ++ (if isNew then [Effect.saveEdge community.uuid entity.uuid] else [])
    ++ [Effect.generateNameEmbedding newName,
        Effect.saveCommunity community.uuid]

/-- An entity edge as handled by the API wrappers. -/
structure EntityEdgeRec where
  uuid : String
deriving DecidableEq

/-- An episodic node as handled by the API wrappers. -/
structure EpisodicNodeRec where
  uuid : String
deriving DecidableEq

/-- What an API wrapper in `zep_graphiti.py` does: return a value, raise
`HTTPException(status_code=404, detail=...)`, or let another exception
propagate untranslated. -/
inductive ApiOutcome (α : Type) where
  | ok (a : α)
  | http404 (detail : String)
  | raised (e : PyError)
deriving DecidableEq

/-- `ZepGraphiti.get_entity_edge`: `EntityEdge.get_by_uuid` (outcome given
by the `lookup` oracle) inside a try block whose except clause translates
`EdgeNotFoundError` into a 404 with the error's message. -/
def getEntityEdge (lookup : Except PyError EntityEdgeRec) :
    ApiOutcome EntityEdgeRec :=
  match lookup with
  | .ok edge => .ok edge
  | .error (.edgeNotFound m) => .http404 m
  | .error e => .raised e

/-- `ZepGraphiti.delete_entity_edge`: lookup then `edge.delete`, both inside
the try block translating `EdgeNotFoundError` to 404.  The second component
lists the uuids on which a delete call was issued. -/
def deleteEntityEdge (lookup : Except PyError EntityEdgeRec)
    (deleteStep : EntityEdgeRec → Except PyError Unit) :
    ApiOutcome Unit × List String :=
  match lookup with
  | .error (.edgeNotFound m) => (.http404 m, [])
  | .error e => (.raised e, [])
  | .ok edge =>
    match deleteStep edge with
    | .ok _ => (.ok (), [edge.uuid])
    | .error (.edgeNotFound m) => (.http404 m, [edge.uuid])
    | .error e => (.raised e, [edge.uuid])

/-- `ZepGraphiti.delete_episodic_node`: lookup then `episode.delete`, both
inside the try block translating `NodeNotFoundError` to 404.  The second
component lists the uuids on which a delete call was issued. -/
def deleteEpisodicNode (lookup : Except PyError EpisodicNodeRec)
    (deleteStep : EpisodicNodeRec → Except PyError Unit) :
    ApiOutcome Unit × List String :=
  match lookup with
  | .error (.nodeNotFound m) => (.http404 m, [])
  | .error e => (.raised e, [])
  | .ok episode =>
    match deleteStep episode with
    | .ok _ => (.ok (), [episode.uuid])
    | .error (.nodeNotFound m) => (.http404 m, [episode.uuid])
    | .error e => (.raised e, [episode.uuid])

/-! Lemmas about the reduction loop. -/

theorem length_reduceRound (merge : String → String → String) (s : List String) :
    (reduceRound merge s).length = (s.length + 1) / 2 := by
  by_cases hp : s.length % 2 = 1
  · have hne : s ≠ [] := by
      intro he; rw [he] at hp; simp at hp
    obtain ⟨x, hx⟩ : ∃ x, s.getLast? = some x := by
      cases hl : s.getLast? with
      | none => exact absurd (List.getLast?_eq_none_iff.mp hl) hne
      | some x => exact ⟨x, rfl⟩
    simp [reduceRound, workingOf, carriedOf, hp, hx]
    omega
  · simp [reduceRound, workingOf, carriedOf, hp]
    omega

theorem workingOf_even (s : List String) : (workingOf s).length % 2 = 0 := by
  by_cases hp : s.length % 2 = 1 <;> simp [workingOf, hp]
  all_goals omega

theorem workingOf_half (s : List String) :
    (workingOf s).length / 2 = s.length / 2 := by
  by_cases hp : s.length % 2 = 1 <;> simp [workingOf, hp]
  all_goals omega

theorem reduceLoop_spec (merge : String → String → String) :
    ∀ (n : Nat) (s : List String), s.length = n → 1 ≤ n →
      (reduceLoop merge s).length = 1 ∧ reduceCalls merge s = n - 1 := by
  intro n
  induction n using Nat.strong_induction_on with
  | _ n ih =>
    intro s hs h1
    by_cases hlen : 1 < s.length
    · have hr : (reduceRound merge s).length = (s.length + 1) / 2 :=
        length_reduceRound merge s
      have hrec := ih ((s.length + 1) / 2) (by omega) (reduceRound merge s) hr (by omega)
      have e1 : reduceLoop merge s = reduceLoop merge (reduceRound merge s) := by
        conv_lhs => unfold reduceLoop
        simp [hlen]
      have e2 : reduceCalls merge s
          = (workingOf s).length / 2 + reduceCalls merge (reduceRound merge s) := by
        conv_lhs => unfold reduceCalls
        simp [hlen]
      refine ⟨by rw [e1]; exact hrec.1, ?_⟩
      rw [e2, hrec.2, workingOf_half]
      omega
    · have hs1 : s.length = 1 := by omega
      have e1 : reduceLoop merge s = s := by
        conv_lhs => unfold reduceLoop
        simp [hlen]
      have e2 : reduceCalls merge s = 0 := by
        conv_lhs => unfold reduceCalls
        simp [hlen]
      rw [e1, e2, hs1]
      omega

theorem reduceLoop_singleton (merge : String → String → String) (x : String) :
    reduceLoop merge [x] = [x] := by
  conv_lhs => unfold reduceLoop
  simp

theorem reduceCalls_singleton (merge : String → String → String) (x : String) :
    reduceCalls merge [x] = 0 := by
  conv_lhs => unfold reduceCalls
  simp

theorem zipWith_halves (f : String → String → String) (w : List String)
    (hw : w.length % 2 = 0) :
    List.zipWith f (w.take (w.length / 2)) (w.drop (w.length / 2))
      = (List.range (w.length / 2)).map
          (fun i => f (w.getD i "") (w.getD (w.length / 2 + i) "")) := by
  apply List.ext_getElem
  · simp
    omega
  · intro i h1 h2
    have hi : i < w.length / 2 := by
      simp at h1
      omega
    have hiw : i < w.length := by omega
    have hiw2 : w.length / 2 + i < w.length := by omega
    simp only [List.getElem_zipWith, List.getElem_take, List.getElem_drop,
      List.getElem_map, List.getElem_range]
    rw [List.getD_eq_getElem?_getD, List.getD_eq_getElem?_getD,
      List.getElem?_eq_getElem hiw, List.getElem?_eq_getElem hiw2]
    simp

/-! Claims about the reduction schedule of `build_community`. -/

/-- C1 (counterexample): on the length-5 summary sequence `[a,b,c,d,e]`
with merge output the concatenation of the pair, the first reduction round
produces `["ac", "bd", "e"]` — the pairs merged are `(a,c)` and `(b,d)` —
and not `["ad", "bc", "e"]`, which the claimed pairing `(a,d)`, `(b,c)`
would produce. -/
theorem claim1_counterexample :
    reduceRound (fun a b => a ++ b) ["a", "b", "c", "d", "e"] = ["ac", "bd", "e"] ∧
    reduceRound (fun a b => a ++ b) ["a", "b", "c", "d", "e"] ≠ ["ad", "bc", "e"] := by
  constructor
  · decide
  · decide

/-- C1 (amended): for a cluster whose entities carry the summary sequence
`[a,b,c,d,e]`, the first reduction round of `build_community` sets aside
`e` as the carried element and issues exactly the two pair merges `(a,c)`
and `(b,d)`, producing the new sequence `[m1, m2, e]`. -/
theorem claim1_amended (merge : String → String → String) (a b c d e : String) :
    reduceRound merge [a, b, c, d, e] = [merge a c, merge b d, e] := by
  simp [reduceRound, workingOf, carriedOf]

/-- C4: in every reduction round of `build_community`, the working sequence
(after the positional last element has been popped when the length is odd)
has even length `L`, element `i` of its first half (`0 .. L/2 - 1`) is
merged with element `i` of its second half (`L/2 .. L - 1`), and the
carried-forward element is re-appended at the end of the round's resulting
sequence after all pair merges. -/
theorem claim4_round_pairing (merge : String → String → String) (s : List String) :
    (workingOf s).length % 2 = 0 ∧
    reduceRound merge s
      = ((List.range ((workingOf s).length / 2)).map
          (fun i => merge ((workingOf s).getD i "")
            ((workingOf s).getD ((workingOf s).length / 2 + i) "")))
        ++ (carriedOf s).toList := by
  refine ⟨workingOf_even s, ?_⟩
  rw [reduceRound, zipWith_halves merge (workingOf s) (workingOf_even s)]

/-- C7: on a single-entity cluster, `build_community` issues no
`summarize_pair` call, the community summary is the entity's own summary
unchanged, and the name is derived from that summary alone. -/
theorem claim7_single_entity (merge : String → String → String)
    (nameOf : String → String) (e : EntityNode) :
    buildCommunity merge nameOf [e]
        = some { name := nameOf e.summary, group_id := e.group_id,
                 summary := e.summary } ∧
    buildCommunityCalls merge [e] = 0 := by
  constructor
  · simp [buildCommunity, reduceLoop_singleton]
  · simp [buildCommunityCalls, reduceCalls_singleton]

/-- C8: on a non-empty cluster of `n` entities the reduction loop of
`build_community` terminates (it is a total function of the input) having
invoked `summarize_pair` exactly `n - 1` times in total, and the final
sequence holds exactly one summary. -/
theorem claim8_call_count (merge : String → String → String)
    (cluster : List EntityNode) (h : cluster ≠ []) :
    buildCommunityCalls merge cluster = cluster.length - 1 ∧
    (reduceLoop merge (cluster.map (fun e => e.summary))).length = 1 := by
  have hl : 1 ≤ (cluster.map (fun e => e.summary)).length := by
    rw [List.length_map]
    exact List.length_pos.mpr h
  obtain ⟨h1, h2⟩ :=
    reduceLoop_spec merge (cluster.map (fun e => e.summary)).length
      (cluster.map (fun e => e.summary)) rfl hl
  refine ⟨?_, h1⟩
  simpa [buildCommunityCalls, List.length_map] using h2

/-- Witness for C8 at a concrete three-entity cluster. -/
theorem claim8_call_count_witness :
    buildCommunityCalls (fun a b => a ++ b)
        [EntityNode.mk "u1" "n1" "g" "s1", EntityNode.mk "u2" "n2" "g" "s2",
         EntityNode.mk "u3" "n3" "g" "s3"]
      = ([EntityNode.mk "u1" "n1" "g" "s1", EntityNode.mk "u2" "n2" "g" "s2",
          EntityNode.mk "u3" "n3" "g" "s3"]).length - 1 ∧
    (reduceLoop (fun a b => a ++ b)
        (([EntityNode.mk "u1" "n1" "g" "s1", EntityNode.mk "u2" "n2" "g" "s2",
           EntityNode.mk "u3" "n3" "g" "s3"]).map (fun e => e.summary))).length = 1 :=
  claim8_call_count (fun a b => a ++ b) _ (by decide)

/-! Lemmas about vote tallying and the selection loop. -/

theorem mem_dedupFirst (u : String) : ∀ (l : List String),
    u ∈ dedupFirst l ↔ u ∈ l := by
  intro l
  induction l with
  | nil => simp [dedupFirst]
  | cons v rest ih =>
    by_cases huv : u = v <;> simp [dedupFirst, List.mem_filter, ih, huv]

theorem nodup_dedupFirst : ∀ (l : List String), (dedupFirst l).Nodup := by
  intro l
  induction l with
  | nil => simp [dedupFirst]
  | cons v rest ih =>
    rw [dedupFirst, List.nodup_cons]
    constructor
    · intro hmem
      have := List.mem_filter.mp hmem
      simp at this
    · exact ih.filter _

theorem countU_pos (u : String) : ∀ (l : List String), u ∈ l → 1 ≤ countU u l := by
  intro l
  induction l with
  | nil => simp
  | cons v rest ih =>
    intro hm
    by_cases hv : v = u
    · simp [countU, hv]
    · have hmr : u ∈ rest := by
        rcases List.mem_cons.mp hm with h | h
        · exact absurd h.symm hv
        · exact h
      have := ih hmr
      simp [countU, hv]
      omega

theorem mem_take_firstIdx (u w : String) : ∀ (l : List String),
    u ∈ l.take (firstIdx w l) → u ∈ l ∧ firstIdx u l < firstIdx w l := by
  intro l
  induction l with
  | nil => simp
  | cons v rest ih =>
    intro hm
    by_cases hvw : v = w
    · simp [firstIdx, hvw] at hm
    · rw [firstIdx, if_neg hvw, List.take_succ_cons] at hm
      by_cases hvu : v = u
      · refine ⟨by rw [hvu]; exact List.mem_cons_self u rest, ?_⟩
        rw [firstIdx, if_pos hvu, firstIdx, if_neg hvw]
        omega
      · have hm2 : u ∈ rest.take (firstIdx w rest) := by
          rcases List.mem_cons.mp hm with h | h
          · exact absurd h.symm hvu
          · exact h
        obtain ⟨h1, h2⟩ := ih hm2
        refine ⟨List.mem_cons_of_mem v h1, ?_⟩
        rw [firstIdx, if_neg hvu, firstIdx, if_neg hvw]
        omega

theorem firstIdx_filter_lt (P : String → Bool) (u w : String) :
    ∀ (l : List String), P u = true → P w = true →
      firstIdx u l < firstIdx w l →
      firstIdx u (l.filter P) < firstIdx w (l.filter P) := by
  intro l
  induction l with
  | nil => intro _ _ h; simp [firstIdx] at h
  | cons v rest ih =>
    intro hPu hPw hlt
    by_cases hvu : v = u
    · have hvw : v ≠ w := by
        intro he
        rw [firstIdx, if_pos hvu, firstIdx, if_pos he] at hlt
        omega
      have hPv : P v = true := by rw [hvu]; exact hPu
      rw [List.filter_cons_of_pos hPv, firstIdx, if_pos hvu, firstIdx, if_neg hvw]
      omega
    · by_cases hvw : v = w
      · rw [firstIdx, if_neg hvu, firstIdx, if_pos hvw] at hlt
        omega
      · have hlt2 : firstIdx u rest < firstIdx w rest := by
          rw [firstIdx, if_neg hvu, firstIdx, if_neg hvw] at hlt
          omega
        have hrec := ih hPu hPw hlt2
        by_cases hPv : P v = true
        · rw [List.filter_cons_of_pos hPv, firstIdx, if_neg hvu, firstIdx, if_neg hvw]
          omega
        · rw [List.filter_cons_of_neg (by simpa using hPv)]
          exact hrec

theorem firstIdx_dedupFirst_lt (u w : String) :
    ∀ (l : List String), firstIdx u l < firstIdx w l →
      firstIdx u (dedupFirst l) < firstIdx w (dedupFirst l) := by
  intro l
  induction l with
  | nil => intro h; simp [firstIdx] at h
  | cons v rest ih =>
    intro hlt
    by_cases hvu : v = u
    · have hvw : v ≠ w := by
        intro he
        rw [firstIdx, if_pos hvu, firstIdx, if_pos he] at hlt
        omega
      rw [dedupFirst, firstIdx, if_pos hvu, firstIdx, if_neg hvw]
      omega
    · by_cases hvw : v = w
      · rw [firstIdx, if_neg hvu, firstIdx, if_pos hvw] at hlt
        omega
      · have hlt2 : firstIdx u rest < firstIdx w rest := by
          rw [firstIdx, if_neg hvu, firstIdx, if_neg hvw] at hlt
          omega
        have hrec := ih hlt2
        have hfil := firstIdx_filter_lt (fun x => decide (x ≠ v)) u w (dedupFirst rest)
          (by simp; intro he; exact hvu he.symm)
          (by simp; intro he; exact hvw he.symm) hrec
        rw [dedupFirst, firstIdx, if_neg hvu, firstIdx, if_neg hvw]
        omega

theorem firstIdx_append_notmem (u : String) :
    ∀ (A B : List String), u ∉ A → firstIdx u (A ++ B) = A.length + firstIdx u B := by
  intro A
  induction A with
  | nil => simp
  | cons v A ih =>
    intro B hnm
    have hvu : v ≠ u := by
      intro he
      exact hnm (by rw [he]; exact List.mem_cons_self u A)
    have hA : u ∉ A := fun hm => hnm (List.mem_cons_of_mem v hm)
    rw [List.cons_append, firstIdx, if_neg hvu, ih B hA]
    simp
    omega

theorem mem_left_of_firstIdx_lt (u : String) (A C : List String)
    (hm : firstIdx u (A ++ C) < A.length) : u ∈ A := by
  by_contra hnm
  rw [firstIdx_append_notmem u A C hnm] at hm
  omega

theorem sel_stay : ∀ (m : List (String × Nat)) (acc : Option String × Nat),
    (∀ q ∈ m, q.2 ≤ acc.2) → m.foldl selStep acc = acc := by
  intro m
  induction m with
  | nil => intro acc _; rfl
  | cons p m ih =>
    intro acc hall
    have hp : p.2 ≤ acc.2 := hall p (List.mem_cons_self p m)
    have hstep : selStep acc p = acc := by
      rw [selStep, if_neg (by omega)]
    rw [List.foldl_cons, hstep]
    exact ih acc (fun q hq => hall q (List.mem_cons_of_mem p hq))

theorem sel_found : ∀ (m : List (String × Nat)) (acc : Option String × Nat),
    (∃ q ∈ m, acc.2 < q.2) →
    ∃ A p B, m = A ++ p :: B ∧ m.foldl selStep acc = (some p.1, p.2) ∧
      acc.2 < p.2 ∧ (∀ q ∈ A, q.2 < p.2) ∧ (∀ q ∈ m, q.2 ≤ p.2) := by
  intro m
  induction m with
  | nil => intro acc h; simp at h
  | cons p0 m ih =>
    intro acc hex
    by_cases hstep : acc.2 < p0.2
    · have hfold : (p0 :: m).foldl selStep acc = m.foldl selStep (some p0.1, p0.2) := by
        rw [List.foldl_cons, selStep, if_pos hstep]
      by_cases hrest : ∀ q ∈ m, q.2 ≤ p0.2
      · refine ⟨[], p0, m, by simp, ?_, hstep, by simp, ?_⟩
        · rw [hfold, sel_stay m (some p0.1, p0.2) (by simpa using hrest)]
        · intro q hq
          rcases List.mem_cons.mp hq with h | h
          · rw [h]
          · exact hrest q h
      · push_neg at hrest
        obtain ⟨q0, hq0m, hq0⟩ := hrest
        obtain ⟨A, p, B, hm, hfold2, hlt, hA, hall⟩ :=
          ih (some p0.1, p0.2) ⟨q0, hq0m, by simpa using hq0⟩
        have hp0p : p0.2 < p.2 := by simpa using hlt
        refine ⟨p0 :: A, p, B, by simp [hm], by rw [hfold]; exact hfold2, by omega,
          ?_, ?_⟩
        · intro q hq
          rcases List.mem_cons.mp hq with h | h
          · rw [h]; exact hp0p
          · exact hA q h
        · intro q hq
          rcases List.mem_cons.mp hq with h | h
          · rw [h]; omega
          · exact hall q h
    · have hfold : (p0 :: m).foldl selStep acc = m.foldl selStep acc := by
        rw [List.foldl_cons, selStep, if_neg hstep]
      have hex2 : ∃ q ∈ m, acc.2 < q.2 := by
        obtain ⟨q, hq, hlt⟩ := hex
        rcases List.mem_cons.mp hq with h | h
        · rw [h] at hlt; exact absurd hlt hstep
        · exact ⟨q, h, hlt⟩
      obtain ⟨A, p, B, hm, hfold2, hlt, hA, hall⟩ := ih acc hex2
      refine ⟨p0 :: A, p, B, by simp [hm], by rw [hfold]; exact hfold2, hlt, ?_, ?_⟩
      · intro q hq
        rcases List.mem_cons.mp hq with h | h
        · rw [h]; omega
        · exact hA q h
      · intro q hq
        rcases List.mem_cons.mp hq with h | h
        · rw [h]; omega
        · exact hall q h

theorem mem_tally (us : List String) :
    ∀ q ∈ tally us, q.1 ∈ us ∧ q.2 = countU q.1 us := by
  intro q hq
  obtain ⟨u, hu, he⟩ := List.mem_map.mp hq
  rw [← he]
  exact ⟨(mem_dedupFirst u us).mp hu, rfl⟩

theorem tally_ne_nil (us : List String) (h : us ≠ []) : tally us ≠ [] := by
  cases us with
  | nil => exact absurd rfl h
  | cons a l => simp [tally, dedupFirst]

theorem map_fst_tally (us : List String) :
    (tally us).map Prod.fst = dedupFirst us := by
  rw [tally, List.map_map]
  show List.map (fun u => u) (dedupFirst us) = dedupFirst us
  exact List.map_id' (dedupFirst us)

/-- The core of `determine_entity_community` on the no-direct-membership
path with at least one neighbor vote: the returned community is a listed
one, it is returned with `is_new = True`, its vote count is maximal, and
every uuid whose first occurrence in the result order precedes that of the
winner has a strictly smaller count (the first community to reach the
maximum is kept, so an equal count never displaces the leader). -/
theorem determine_voting (nbrs : List CommunityNode) (h : nbrs ≠ []) :
    ∃ c, determineEntityCommunity [] nbrs = (some c, true) ∧
      c ∈ nbrs ∧
      (∀ u ∈ nbrs.map (fun x => x.uuid),
        countU u (nbrs.map (fun x => x.uuid))
          ≤ countU c.uuid (nbrs.map (fun x => x.uuid))) ∧
      (∀ u ∈ (nbrs.map (fun x => x.uuid)).take
          (firstIdx c.uuid (nbrs.map (fun x => x.uuid))),
        countU u (nbrs.map (fun x => x.uuid))
          < countU c.uuid (nbrs.map (fun x => x.uuid))) := by
  have husne : nbrs.map (fun x => x.uuid) ≠ [] := by
    intro he
    exact h (List.map_eq_nil_iff.mp he)
  obtain ⟨q0, hq0⟩ := List.exists_mem_of_ne_nil _
    (tally_ne_nil (nbrs.map (fun x => x.uuid)) husne)
  have hq0pos : (0 : Nat) < q0.2 := by
    obtain ⟨hmem, heq⟩ := mem_tally _ q0 hq0
    have := countU_pos q0.1 _ hmem
    omega
  obtain ⟨A, p, B, hsplit, hfold, hlt, hA, hall⟩ :=
    sel_found (tally (nbrs.map (fun x => x.uuid))) (none, 0) ⟨q0, hq0, hq0pos⟩
  obtain ⟨pu, pc⟩ := p
  have hpmem : (pu, pc) ∈ tally (nbrs.map (fun x => x.uuid)) := by
    rw [hsplit]
    exact List.mem_append_right A (List.mem_cons_self (pu, pc) B)
  obtain ⟨hpus, hpc⟩ := mem_tally _ (pu, pc) hpmem
  simp only [] at hpus hpc
  have hpos : (0 : Nat) < pc := by simpa using hlt
  have hsel : selectMax (tally (nbrs.map (fun x => x.uuid))) = (some pu, pc) := hfold
  obtain ⟨c1, hc1mem, hc1u⟩ : ∃ c1 ∈ nbrs, c1.uuid = pu := by
    obtain ⟨x, hx, he⟩ := List.mem_map.mp hpus
    exact ⟨x, hx, he⟩
  have hfis : (nbrs.find? (fun x => decide (some x.uuid = some pu))).isSome := by
    rw [List.find?_isSome]
    exact ⟨c1, hc1mem, by simp [hc1u]⟩
  obtain ⟨c0, hc0⟩ := Option.isSome_iff_exists.mp hfis
  have hc0mem : c0 ∈ nbrs := List.mem_of_find?_eq_some hc0
  have hc0u : c0.uuid = pu := by
    have := List.find?_some hc0
    simpa using this
  have hdet : determineEntityCommunity [] nbrs = (some c0, true) := by
    simp only [determineEntityCommunity, hsel]
    rw [if_neg (Nat.pos_iff_ne_zero.mp hpos), hc0]
  refine ⟨c0, hdet, hc0mem, ?_, ?_⟩
  · intro u hu
    have hud : u ∈ dedupFirst (nbrs.map (fun x => x.uuid)) :=
      (mem_dedupFirst u _).mpr hu
    have hmem2 : (u, countU u (nbrs.map (fun x => x.uuid)))
        ∈ tally (nbrs.map (fun x => x.uuid)) :=
      List.mem_map.mpr ⟨u, hud, rfl⟩
    have := hall _ hmem2
    simp at this
    rw [hc0u]
    omega
  · intro u hu
    rw [hc0u] at hu ⊢
    obtain ⟨humem, hidx⟩ := mem_take_firstIdx u pu _ hu
    have hord := firstIdx_dedupFirst_lt u pu _ hidx
    have hdd : dedupFirst (nbrs.map (fun x => x.uuid))
        = A.map Prod.fst ++ pu :: B.map Prod.fst := by
      rw [← map_fst_tally, hsplit]
      simp
    have hnodup := nodup_dedupFirst (nbrs.map (fun x => x.uuid))
    rw [hdd] at hnodup
    have hpnA : pu ∉ A.map Prod.fst := by
      intro hin
      have hdisj := (List.nodup_append.mp hnodup).2.2
      exact hdisj hin (List.mem_cons_self pu (B.map Prod.fst))
    have hfi : firstIdx pu (dedupFirst (nbrs.map (fun x => x.uuid)))
        = (A.map Prod.fst).length := by
      rw [hdd, firstIdx_append_notmem pu _ _ hpnA, firstIdx, if_pos rfl]
      omega
    have hultA : firstIdx u (dedupFirst (nbrs.map (fun x => x.uuid)))
        < (A.map Prod.fst).length := by
      rw [← hfi]
      exact hord
    have huA : u ∈ A.map Prod.fst := by
      apply mem_left_of_firstIdx_lt u (A.map Prod.fst) (pu :: B.map Prod.fst)
      rw [← hdd]
      exact hultA
    obtain ⟨q, hqA, hq1⟩ := List.mem_map.mp huA
    have hqt : q ∈ tally (nbrs.map (fun x => x.uuid)) := by
      rw [hsplit]
      exact List.mem_append_left _ hqA
    obtain ⟨hq1us, hq2⟩ := mem_tally _ q hqt
    have hqlt := hA q hqA
    rw [hq1] at hq2
    simp at hqlt
    omega

/-- C3: with no direct membership and at least one neighbor vote,
`determine_entity_community` returns (with `is_new = True`) a listed
community whose vote count is maximal, and every uuid first encountered
earlier in tally order than the winner has a strictly smaller count: a
later community with an equal, not strictly greater, count never displaces
the current leader.  The selection is a pure function of the result list,
hence deterministic for a fixed result order. -/
theorem claim3_tie_break (nbrs : List CommunityNode) (h : nbrs ≠ []) :
    ∃ c, determineEntityCommunity [] nbrs = (some c, true) ∧
      c ∈ nbrs ∧
      (∀ u ∈ nbrs.map (fun x => x.uuid),
        countU u (nbrs.map (fun x => x.uuid))
          ≤ countU c.uuid (nbrs.map (fun x => x.uuid))) ∧
      (∀ u ∈ (nbrs.map (fun x => x.uuid)).take
          (firstIdx c.uuid (nbrs.map (fun x => x.uuid))),
        countU u (nbrs.map (fun x => x.uuid))
          < countU c.uuid (nbrs.map (fun x => x.uuid))) :=
  determine_voting nbrs h

/-- Witness for C3 on a tied vote: two records for community Y and two for
community Z, counts 2 and 2; the first community to reach the maximum, Y,
is kept. -/
theorem claim3_tie_break_witness :
    ∃ c, determineEntityCommunity []
        [CommunityNode.mk "Y" "ny" "g" "sy", CommunityNode.mk "Z" "nz" "g" "sz",
         CommunityNode.mk "Y" "ny2" "g" "sy2", CommunityNode.mk "Z" "nz2" "g" "sz2"]
      = (some c, true) ∧
      c ∈ [CommunityNode.mk "Y" "ny" "g" "sy", CommunityNode.mk "Z" "nz" "g" "sz",
           CommunityNode.mk "Y" "ny2" "g" "sy2", CommunityNode.mk "Z" "nz2" "g" "sz2"] ∧
      (∀ u ∈ ([CommunityNode.mk "Y" "ny" "g" "sy", CommunityNode.mk "Z" "nz" "g" "sz",
           CommunityNode.mk "Y" "ny2" "g" "sy2",
           CommunityNode.mk "Z" "nz2" "g" "sz2"]).map (fun x => x.uuid),
        countU u (([CommunityNode.mk "Y" "ny" "g" "sy", CommunityNode.mk "Z" "nz" "g" "sz",
           CommunityNode.mk "Y" "ny2" "g" "sy2",
           CommunityNode.mk "Z" "nz2" "g" "sz2"]).map (fun x => x.uuid))
          ≤ countU c.uuid (([CommunityNode.mk "Y" "ny" "g" "sy",
           CommunityNode.mk "Z" "nz" "g" "sz", CommunityNode.mk "Y" "ny2" "g" "sy2",
           CommunityNode.mk "Z" "nz2" "g" "sz2"]).map (fun x => x.uuid))) ∧
      (∀ u ∈ (([CommunityNode.mk "Y" "ny" "g" "sy", CommunityNode.mk "Z" "nz" "g" "sz",
           CommunityNode.mk "Y" "ny2" "g" "sy2",
           CommunityNode.mk "Z" "nz2" "g" "sz2"]).map (fun x => x.uuid)).take
          (firstIdx c.uuid (([CommunityNode.mk "Y" "ny" "g" "sy",
           CommunityNode.mk "Z" "nz" "g" "sz", CommunityNode.mk "Y" "ny2" "g" "sy2",
           CommunityNode.mk "Z" "nz2" "g" "sz2"]).map (fun x => x.uuid))),
        countU u (([CommunityNode.mk "Y" "ny" "g" "sy", CommunityNode.mk "Z" "nz" "g" "sz",
           CommunityNode.mk "Y" "ny2" "g" "sy2",
           CommunityNode.mk "Z" "nz2" "g" "sz2"]).map (fun x => x.uuid))
          < countU c.uuid (([CommunityNode.mk "Y" "ny" "g" "sy",
           CommunityNode.mk "Z" "nz" "g" "sz", CommunityNode.mk "Y" "ny2" "g" "sy2",
           CommunityNode.mk "Z" "nz2" "g" "sz2"]).map (fun x => x.uuid))) :=
  claim3_tie_break _ (by decide)

/-- C9: `determine_entity_community` never returns `(None, True)`: whenever
the returned community is `None` the boolean is `False`, and whenever the
boolean is `True` the returned community is present and holds a maximal
vote count. -/
theorem claim9_no_none_true (direct nbrs : List CommunityNode) :
    ((determineEntityCommunity direct nbrs).1 = none →
      (determineEntityCommunity direct nbrs).2 = false) ∧
    ((determineEntityCommunity direct nbrs).2 = true →
      ∃ c, (determineEntityCommunity direct nbrs).1 = some c ∧
        ∀ u ∈ nbrs.map (fun x => x.uuid),
          countU u (nbrs.map (fun x => x.uuid))
            ≤ countU c.uuid (nbrs.map (fun x => x.uuid))) := by
  cases direct with
  | cons c rest => simp [determineEntityCommunity]
  | nil =>
    by_cases hn : nbrs = []
    · subst hn
      have hd : determineEntityCommunity [] ([] : List CommunityNode)
          = (none, false) := rfl
      rw [hd]
      simp
    · obtain ⟨c, hdet, _, hmax, _⟩ := determine_voting nbrs hn
      rw [hdet]
      exact ⟨by simp, fun _ => ⟨c, rfl, hmax⟩⟩

/-! Claims about `update_community`, `build_communities` and the API layer. -/

/-- C5: when the assignment resolves to a community with `is_new = True`,
`update_community` issues exactly this call sequence: the pair
summarization, the name derivation, exactly one save of the new membership
edge (community to entity), exactly one name-embedding regeneration, and
only then the save of the updated community node. -/
theorem claim5_new_member (merge : String → String → String)
    (nameOf : String → String) (direct nbrs : List CommunityNode)
    (entity : EntityNode) (c : CommunityNode)
    (h : determineEntityCommunity direct nbrs = (some c, true)) :
    updateCommunity merge nameOf direct nbrs entity
      = [Effect.llmSummarizePair entity.summary c.summary,
         Effect.llmDescribe (merge entity.summary c.summary),
         Effect.saveEdge c.uuid entity.uuid,
         Effect.generateNameEmbedding (nameOf (merge entity.summary c.summary)),
         Effect.saveCommunity c.uuid] ∧
    ((updateCommunity merge nameOf direct nbrs entity).filter
        Effect.isSaveEdge).length = 1 ∧
    ((updateCommunity merge nameOf direct nbrs entity).filter
        Effect.isEmbedding).length = 1 ∧
    (updateCommunity merge nameOf direct nbrs entity).filter
        (fun e => e.isEmbedding || e.isSaveCommunity)
      = [Effect.generateNameEmbedding (nameOf (merge entity.summary c.summary)),
         Effect.saveCommunity c.uuid] := by
  have h1 : updateCommunity merge nameOf direct nbrs entity
      = [Effect.llmSummarizePair entity.summary c.summary,
         Effect.llmDescribe (merge entity.summary c.summary),
         Effect.saveEdge c.uuid entity.uuid,
         Effect.generateNameEmbedding (nameOf (merge entity.summary c.summary)),
         Effect.saveCommunity c.uuid] := by
    simp [updateCommunity, h]
  refine ⟨h1, ?_, ?_, ?_⟩ <;> rw [h1] <;> rfl

/-- Witness for C5 at concrete collaborators and records. -/
theorem claim5_new_member_witness :
    updateCommunity (fun a b => a ++ b) (fun s => "N" ++ s) []
        [CommunityNode.mk "cu" "cn" "g" "cs"] (EntityNode.mk "eu" "en" "g" "es")
      = [Effect.llmSummarizePair "es" "cs",
         Effect.llmDescribe ("es" ++ "cs"),
         Effect.saveEdge "cu" "eu",
         Effect.generateNameEmbedding ("N" ++ ("es" ++ "cs")),
         Effect.saveCommunity "cu"] ∧
    ((updateCommunity (fun a b => a ++ b) (fun s => "N" ++ s) []
        [CommunityNode.mk "cu" "cn" "g" "cs"]
        (EntityNode.mk "eu" "en" "g" "es")).filter Effect.isSaveEdge).length = 1 ∧
    ((updateCommunity (fun a b => a ++ b) (fun s => "N" ++ s) []
        [CommunityNode.mk "cu" "cn" "g" "cs"]
        (EntityNode.mk "eu" "en" "g" "es")).filter Effect.isEmbedding).length = 1 ∧
    (updateCommunity (fun a b => a ++ b) (fun s => "N" ++ s) []
        [CommunityNode.mk "cu" "cn" "g" "cs"]
        (EntityNode.mk "eu" "en" "g" "es")).filter
        (fun e => e.isEmbedding || e.isSaveCommunity)
      = [Effect.generateNameEmbedding ("N" ++ ("es" ++ "cs")),
         Effect.saveCommunity "cu"] :=
  claim5_new_member (fun a b => a ++ b) (fun s => "N" ++ s) []
    [CommunityNode.mk "cu" "cn" "g" "cs"] (EntityNode.mk "eu" "en" "g" "es")
    (CommunityNode.mk "cu" "cn" "g" "cs") (by decide)

/-- C6: when the assignment resolves to `None`, `update_community` returns
immediately: it issues no collaborator call at all — in particular no edge
save, no embedding generation and no community save — and this is a normal
return, not an error. -/
theorem claim6_none_noop (merge : String → String → String)
    (nameOf : String → String) (direct nbrs : List CommunityNode)
    (entity : EntityNode)
    (h : (determineEntityCommunity direct nbrs).1 = none) :
    updateCommunity merge nameOf direct nbrs entity = [] := by
  cases hd : determineEntityCommunity direct nbrs with
  | mk o b =>
    rw [hd] at h
    simp at h
    subst h
    simp [updateCommunity, hd]

/-- Witness for C6: an entity with no memberships and no neighbor votes. -/
theorem claim6_none_noop_witness :
    updateCommunity (fun a b => a ++ b) (fun s => "N" ++ s) [] []
      (EntityNode.mk "eu" "en" "g" "es") = [] :=
  claim6_none_noop (fun a b => a ++ b) (fun s => "N" ++ s) [] []
    (EntityNode.mk "eu" "en" "g" "es") (by decide)

/-- C2 (evaluation of the code's behavior): `build_communities` has no
try/finally around the steps between `build_projection` and the teardown,
so after a successful projection build a failing clustering step or a
failing `build_community` task aborts the call with zero
`destroy_projection` invocations; the teardown runs (exactly once) only
when every step succeeds. -/
theorem claim2_no_teardown_on_failure :
    (buildCommunitiesRun (Except.ok "communities")
        (fun _ => Except.error (PyError.other "clustering failed"))
        (fun _ => Except.ok (BuiltCommunity.mk "" "" ""))).2 = 0 ∧
    (buildCommunitiesRun (Except.ok "communities")
        (fun _ => Except.ok [[EntityNode.mk "u" "n" "g" "s"]])
        (fun _ => Except.error (PyError.other "llm failed"))).2 = 0 ∧
    (buildCommunitiesRun (Except.ok "communities")
        (fun _ => Except.ok [[EntityNode.mk "u" "n" "g" "s"]])
        (fun _ => Except.ok (BuiltCommunity.mk "" "" ""))).2 = 1 :=
  ⟨rfl, rfl, rfl⟩

/-- C10: the three API wrappers raise a 404 exactly when the lookup raises
the not-found error type each translates (`EdgeNotFoundError` for the edge
wrappers, `NodeNotFoundError` for the episode wrapper, assuming the delete
step itself does not raise that type), any other exception propagates
untranslated, and on the not-found path the delete wrappers issue no
delete call. -/
theorem claim10_not_found_translation
    (lookE : Except PyError EntityEdgeRec)
    (delE : EntityEdgeRec → Except PyError Unit)
    (lookN : Except PyError EpisodicNodeRec)
    (delN : EpisodicNodeRec → Except PyError Unit)
    (hdelE : ∀ e m, delE e ≠ Except.error (PyError.edgeNotFound m))
    (hdelN : ∀ n m, delN n ≠ Except.error (PyError.nodeNotFound m)) :
    ((∃ d, getEntityEdge lookE = ApiOutcome.http404 d) ↔
      (∃ m, lookE = Except.error (PyError.edgeNotFound m))) ∧
    (∀ e, lookE = Except.error e → (∀ m, e ≠ PyError.edgeNotFound m) →
      getEntityEdge lookE = ApiOutcome.raised e) ∧
    ((∃ d, (deleteEntityEdge lookE delE).1 = ApiOutcome.http404 d) ↔
      (∃ m, lookE = Except.error (PyError.edgeNotFound m))) ∧
    (∀ e, lookE = Except.error e → (∀ m, e ≠ PyError.edgeNotFound m) →
      (deleteEntityEdge lookE delE).1 = ApiOutcome.raised e) ∧
    ((∃ m, lookE = Except.error (PyError.edgeNotFound m)) →
      (deleteEntityEdge lookE delE).2 = []) ∧
    ((∃ d, (deleteEpisodicNode lookN delN).1 = ApiOutcome.http404 d) ↔
      (∃ m, lookN = Except.error (PyError.nodeNotFound m))) ∧
    (∀ e, lookN = Except.error e → (∀ m, e ≠ PyError.nodeNotFound m) →
      (deleteEpisodicNode lookN delN).1 = ApiOutcome.raised e) ∧
    ((∃ m, lookN = Except.error (PyError.nodeNotFound m)) →
      (deleteEpisodicNode lookN delN).2 = []) := by
  refine ⟨?_, ?_, ?_, ?_, ?_, ?_, ?_, ?_⟩
  · cases lookE with
    | ok e => simp [getEntityEdge]
    | error pe => cases pe <;> simp [getEntityEdge]
  · intro e he hne
    subst he
    cases e with
    | edgeNotFound m => exact absurd rfl (hne m)
    | nodeNotFound m => rfl
    | other m => rfl
  · cases lookE with
    | ok e =>
      cases hde : delE e with
      | ok u => simp [deleteEntityEdge, hde]
      | error pe =>
        cases pe with
        | edgeNotFound m => exact absurd hde (hdelE e m)
        | nodeNotFound m => simp [deleteEntityEdge, hde]
        | other m => simp [deleteEntityEdge, hde]
    | error pe => cases pe <;> simp [deleteEntityEdge]
  · intro e he hne
    subst he
    cases e with
    | edgeNotFound m => exact absurd rfl (hne m)
    | nodeNotFound m => rfl
    | other m => rfl
  · intro hm
    obtain ⟨m, hm⟩ := hm
    subst hm
    rfl
  · cases lookN with
    | ok n =>
      cases hdn : delN n with
      | ok u => simp [deleteEpisodicNode, hdn]
      | error pe =>
        cases pe with
        | edgeNotFound m => simp [deleteEpisodicNode, hdn]
        | nodeNotFound m => exact absurd hdn (hdelN n m)
        | other m => simp [deleteEpisodicNode, hdn]
    | error pe => cases pe <;> simp [deleteEpisodicNode]
  · intro e he hne
    subst he
    cases e with
    | edgeNotFound m => rfl
    | nodeNotFound m => exact absurd rfl (hne m)
    | other m => rfl
  · intro hm
    obtain ⟨m, hm⟩ := hm
    subst hm
    rfl

/-- Witness for C10: a lookup that raises the edge-not-found error is
translated into a 404. -/
theorem claim10_not_found_translation_witness :
    (∃ d, getEntityEdge (Except.error (PyError.edgeNotFound "edge gone"))
        = ApiOutcome.http404 d) ↔
      (∃ m, (Except.error (PyError.edgeNotFound "edge gone")
          : Except PyError EntityEdgeRec)
        = Except.error (PyError.edgeNotFound m)) :=
  (claim10_not_found_translation
    (Except.error (PyError.edgeNotFound "edge gone"))
    (fun _ => Except.ok ())
    (Except.error (PyError.nodeNotFound "episode gone"))
    (fun _ => Except.ok ())
    (by intro e m; simp)
    (by intro n m; simp)).1

end Graphiti
